import Mathlib

/-!
Verification of the PoW-IC mining coordinator core against its specification.

The definitions below are shallow embeddings of the Rust sources:
  * `src/Main/existing/src/existing_backend/src/lib.rs` (hash engine, mining loops),
  * `src/Main/existing/src/existing_backend/src/cache.rs` (LRU cache),
  * `src/Main/existing/src/coordinator/src/scheduler.rs` (streaming scheduler),
  * `src/Main/existing/src/validator/src/lib.rs` (difficulty adjustment).
Machine integers are modelled as `Nat` with explicit `% 2 ^ w` (wrapping) or
`min`-capping (saturating) where the Rust code uses wrapping/saturating
arithmetic.  Strings of bytes are `List Nat` (each element a byte).
-/

namespace PoWIC

/-! ## 32-bit word primitives (SHA-256 building blocks) -/

def M32 : Nat := 4294967296

def U64SIZE : Nat := 18446744073709551616

def U64MAX : Nat := U64SIZE - 1

def U32MAX : Nat := M32 - 1

/-- Saturating `u64` addition (`u64::saturating_add`). -/
def satAdd64 (a b : Nat) : Nat := min (a + b) U64MAX

/-- Saturating `u32` addition (`u32::saturating_add`). -/
def satAdd32 (a b : Nat) : Nat := min (a + b) U32MAX

/-- Rotate a 32-bit word right by `n` (for `x < 2^32`, `0 < n < 32`). -/
def rotr32 (x n : Nat) : Nat := x / 2 ^ n + x % 2 ^ n * 2 ^ (32 - n)

def shr32 (x n : Nat) : Nat := x / 2 ^ n

def bsig0 (x : Nat) : Nat := rotr32 x 2 ^^^ rotr32 x 13 ^^^ rotr32 x 22

def bsig1 (x : Nat) : Nat := rotr32 x 6 ^^^ rotr32 x 11 ^^^ rotr32 x 25

def ssig0 (x : Nat) : Nat := rotr32 x 7 ^^^ rotr32 x 18 ^^^ shr32 x 3

def ssig1 (x : Nat) : Nat := rotr32 x 17 ^^^ rotr32 x 19 ^^^ shr32 x 10

def chFn (x y z : Nat) : Nat := (x &&& y) ^^^ ((x ^^^ 4294967295) &&& z)

def majFn (x y z : Nat) : Nat := (x &&& y) ^^^ (x &&& z) ^^^ (y &&& z)

/-- The 64 SHA-256 round constants. -/
def K256 : List Nat :=
  [1116352408, 1899447441, 3049323471, 3921009573, 961987163,
   1508970993, 2453635748, 2870763221, 3624381080, 310598401,
   607225278, 1426881987, 1925078388, 2162078206, 2614888103,
   3248222580, 3835390401, 4022224774, 264347078, 604807628,
   770255983, 1249150122, 1555081692, 1996064986, 2554220882,
   2821834349, 2952996808, 3210313671, 3336571891, 3584528711,
   113926993, 338241895, 666307205, 773529912, 1294757372,
   1396182291, 1695183700, 1986661051, 2177026350, 2456956037,
   2730485921, 2820302411, 3259730800, 3345764771, 3516065817,
   3600352804, 4094571909, 275423344, 430227734, 506948616,
   659060556, 883997877, 958139571, 1322822218, 1537002063,
   1747873779, 1955562222, 2024104815, 2227730452, 2361852424,
   2428436474, 2756734187, 3204031479, 3329325298]

/-- The SHA-256 initial hash value. -/
def HInit : List Nat :=
  [1779033703, 3144134277, 1013904242, 2773480762, 1359893119,
   2600822924, 528734635, 1541459225]

/-- Parse bytes as big-endian 32-bit words (4 bytes per word). -/
def wordsOfBytes : List Nat → List Nat
  | b0 :: b1 :: b2 :: b3 :: rest => (((b0 * 256 + b1) * 256 + b2) * 256 + b3) :: wordsOfBytes rest
  | _ => []

/-- Big-endian 4-byte encoding of a 32-bit word. -/
def bytesOfWord (w : Nat) : List Nat :=
  [w / 2 ^ 24 % 256, w / 2 ^ 16 % 256, w / 2 ^ 8 % 256, w % 256]

def bytesOfWords (ws : List Nat) : List Nat := ws.flatMap bytesOfWord

/-- Little-endian 8-byte encoding of a `u64` (`u64::to_le_bytes`). -/
def leBytes8 (n : Nat) : List Nat :=
  [n % 256, n / 2 ^ 8 % 256, n / 2 ^ 16 % 256, n / 2 ^ 24 % 256,
   n / 2 ^ 32 % 256, n / 2 ^ 40 % 256, n / 2 ^ 48 % 256, n / 2 ^ 56 % 256]

/-- Big-endian 8-byte encoding of a 64-bit length. -/
def beBytes8 (n : Nat) : List Nat :=
  [n / 2 ^ 56 % 256, n / 2 ^ 48 % 256, n / 2 ^ 40 % 256, n / 2 ^ 32 % 256,
   n / 2 ^ 24 % 256, n / 2 ^ 16 % 256, n / 2 ^ 8 % 256, n % 256]

/-- Extend the 16-word message schedule to 64 words. -/
def extendW : Nat → List Nat → List Nat
  | 0, ws => ws
  | n + 1, ws =>
      let t := ws.length
      extendW n (ws ++ [(ssig1 (ws.getD (t - 2) 0) + ws.getD (t - 7) 0 +
                         ssig0 (ws.getD (t - 15) 0) + ws.getD (t - 16) 0) % M32])

def msgSchedule (block : List Nat) : List Nat := extendW 48 (wordsOfBytes block)

/-- One SHA-256 round on the 8-word working state. -/
def roundStep (st : List Nat) (k w : Nat) : List Nat :=
  match st with
  | [a, b, c, d, e, f, g, h] =>
      let t1 := (h + bsig1 e + chFn e f g + k + w) % M32
      let t2 := (bsig0 a + majFn a b c) % M32
      [(t1 + t2) % M32, a, b, c, (d + t1) % M32, e, f, g]
  | other => other

/-- The SHA-256 compression function: one 64-byte block folded into the state. -/
def compress (H : List Nat) (block : List Nat) : List Nat :=
  let ws := msgSchedule block
  let fin := (K256.zip ws).foldl (fun st kw => roundStep st kw.1 kw.2) H
  List.zipWith (fun x y => (x + y) % M32) H fin

/-- SHA-256 padding tail for a message of byte length `len`:
`0x80`, then zeros to a 64-byte boundary, then the bit length, big-endian. -/
def padTail (len : Nat) : List Nat :=
  128 :: List.replicate ((64 - (len + 9) % 64) % 64) 0 ++ beBytes8 (len * 8)

/-- Split into 64-byte chunks (fuel-driven; `fuel ≥ length` suffices). -/
def chunksGo : Nat → List Nat → List (List Nat)
  | 0, _ => []
  | f + 1, l => if l.isEmpty then [] else l.take 64 :: chunksGo f (l.drop 64)

def chunks (l : List Nat) : List (List Nat) := chunksGo l.length l

/-- One-shot mathematical SHA-256 of a byte string (FIPS 180-4). -/
def sha256 (msg : List Nat) : List Nat :=
  bytesOfWords ((chunks (msg ++ padTail msg.length)).foldl compress HInit)

/-! ## Streaming SHA-256 hasher (model of the `sha2` crate's `Sha256`) -/

/-- Greedily compress 64-byte blocks from `d` into `H`; returns the new state
and the leftover (< 64 bytes).  Fuel-driven; `fuel ≥ d.length` suffices. -/
def absorbGo : Nat → List Nat → List Nat → List Nat × List Nat
  | 0, H, d => (H, d)
  | f + 1, H, d => if d.length < 64 then (H, d) else absorbGo f (compress H (d.take 64)) (d.drop 64)

def absorb (H : List Nat) (d : List Nat) : List Nat × List Nat := absorbGo d.length H d

/-- The streaming hasher: compression state, unprocessed buffer, total length fed. -/
structure Sha256State where
  h : List Nat
  buf : List Nat
  len : Nat
deriving Repr, DecidableEq

def Sha256State.init : Sha256State := ⟨HInit, [], 0⟩

/-- `Digest::update`: buffer the data and eagerly compress full 64-byte blocks. -/
def Sha256State.update (st : Sha256State) (data : List Nat) : Sha256State :=
  let p := absorb st.h (st.buf ++ data)
  ⟨p.1, p.2, st.len + data.length⟩

/-- `Digest::finalize_fixed`: pad out the buffered remainder and emit the digest. -/
def Sha256State.finalize (st : Sha256State) : List Nat :=
  bytesOfWords (absorb st.h (st.buf ++ padTail st.len)).1

/-! ## Hash engine (`existing_backend/src/lib.rs`) -/

/-- `u8::leading_zeros` for a byte value. -/
def leadingZeros8 (b : Nat) : Nat :=
  if b.testBit 7 then 0
  else if b.testBit 6 then 1
  else if b.testBit 5 then 2
  else if b.testBit 4 then 3
  else if b.testBit 3 then 4
  else if b.testBit 2 then 5
  else if b.testBit 1 then 6
  else if b.testBit 0 then 7
  else 8

/-- The byte loop of `meets_difficulty` (the `remaining` counter walks the hash). -/
def meetsGo : List Nat → Nat → Bool
  | [], remaining => remaining == 0
  | b :: rest, remaining =>
      if remaining == 0 then true
      else if remaining ≤ leadingZeros8 b then true
      else if leadingZeros8 b < 8 then false
      else meetsGo rest (remaining - 8)

/-- `meets_difficulty(hash, difficulty)` from `lib.rs` (identical copy in the validator). -/
def meetsDifficulty (hash : List Nat) (difficulty : Nat) : Bool := meetsGo hash difficulty

/-- Lowercase hex digit. -/
def hexDigit (n : Nat) : Char := if n < 10 then Char.ofNat (48 + n) else Char.ofNat (87 + n)

/-- `hash_to_hex` (`hex::encode`): lowercase hex string of a byte list. -/
def hashToHex (bytes : List Nat) : String :=
  String.mk (bytes.flatMap (fun b => [hexDigit (b / 16), hexDigit (b % 16)]))

inductive MiningStatus where
  | Found (hash : String) (nonce : Nat)
  | Continue (next_nonce : Nat)
deriving Repr, DecidableEq

/-- `HashMidState`: a hasher pre-fed with the block data. -/
structure HashMidState where
  hasher : Sha256State
deriving Repr, DecidableEq

/-- `HashMidState::new(block_data)`. -/
def HashMidState.new (blockData : List Nat) : HashMidState :=
  ⟨Sha256State.init.update blockData⟩

/-- `HashMidState::finalize_with_nonce`: clone the state, feed `nonce_le8`, finalize. -/
def HashMidState.finalizeWithNonce (m : HashMidState) (nonce : Nat) : List Nat :=
  (m.hasher.update (leBytes8 nonce)).finalize

/-- `test_naive_hash` / the per-nonce hash of `mine_chunk_naive`: a fresh hasher fed
`block_data` then `nonce_le8`. -/
def naiveHash (blockData : List Nat) (nonce : Nat) : List Nat :=
  ((Sha256State.init.update blockData).update (leBytes8 nonce)).finalize

/-- The `while nonce < end` loop of `mine_chunk_with_midstate`; the fuel argument
is `end - nonce`, so fuel `0` is exactly the exit condition `nonce ≥ end`. -/
def mineLoopMid (mid : HashMidState) (difficulty endN : Nat) :
    Nat → Nat → Nat → MiningStatus × Nat
  | 0, _, attempts => (.Continue endN, attempts)
  | f + 1, nonce, attempts =>
      let h := mid.finalizeWithNonce nonce
      if meetsDifficulty h difficulty then (.Found (hashToHex h) nonce, attempts)
      else mineLoopMid mid difficulty endN f (nonce + 1) (attempts + 1)

/-- `mine_chunk_with_midstate(block_data, difficulty, start_nonce, chunk_size)`. -/
def mineChunkWithMidstate (blockData : List Nat) (difficulty start chunkSize : Nat) :
    MiningStatus × Nat :=
  let mid := HashMidState.new blockData
  let endN := satAdd64 start chunkSize
  mineLoopMid mid difficulty endN (endN - start) start 0

/-- The `while` loop of `mine_chunk_naive` (a fresh hasher per nonce). -/
def mineLoopNaive (blockData : List Nat) (difficulty endN : Nat) :
    Nat → Nat → Nat → MiningStatus × Nat
  | 0, _, attempts => (.Continue endN, attempts)
  | f + 1, nonce, attempts =>
      let h := naiveHash blockData nonce
      if meetsDifficulty h difficulty then (.Found (hashToHex h) nonce, attempts)
      else mineLoopNaive blockData difficulty endN f (nonce + 1) (attempts + 1)

/-- `mine_chunk_naive(block_data, difficulty, start_nonce, chunk_size)`. -/
def mineChunkNaive (blockData : List Nat) (difficulty start chunkSize : Nat) :
    MiningStatus × Nat :=
  let endN := satAdd64 start chunkSize
  mineLoopNaive blockData difficulty endN (endN - start) start 0

/-! ## Spec-side reading of the difficulty predicate (for claim C1) -/

/-- The 8 bits of a byte, most significant first. -/
def byteBits (b : Nat) : List Bool := (List.range 8).map (fun i => b.testBit (7 - i))

/-- The big-endian bit expansion of a hash (spec, §3). -/
def hashBits (h : List Nat) : List Bool := h.flatMap byteBits

/-- Modelled from the spec: the number of leading zero bits of the big-endian
bit expansion of `h`.  The claim reads `meets_difficulty h d` as
`d ≤ specLeadingZeroBits h`. -/
def specLeadingZeroBits (h : List Nat) : Nat :=
  ((hashBits h).takeWhile (fun x => !x)).length

/-! ## Validator difficulty adjustment (`validator/src/lib.rs`) -/

/-- Wrapping `u64` sum (`iter().sum::<u64>()` in a release build wraps modulo `2^64`). -/
def wrapSum64 (l : List Nat) : Nat := l.foldl (fun a b => (a + b) % U64SIZE) 0

/-- `calculate_difficulty_adjustment(current_difficulty, target_block_time_seconds,
actual_block_times_seconds)`.  `target * 2` is a wrapping `u64` product. -/
def calculateDifficultyAdjustment (currentDifficulty targetBlockTime : Nat)
    (actualBlockTimes : List Nat) : Nat :=
  if actualBlockTimes.isEmpty then currentDifficulty
  else
    let sum := wrapSum64 actualBlockTimes
    let avgTime := sum / actualBlockTimes.length
    if avgTime < targetBlockTime / 2 then satAdd32 currentDifficulty 2
    else if avgTime < targetBlockTime then satAdd32 currentDifficulty 1
    else if targetBlockTime * 2 % U64SIZE < avgTime then max (currentDifficulty - 2) 1
    else if targetBlockTime < avgTime then max (currentDifficulty - 1) 1
    else currentDifficulty

/-- Modelled from the spec (claim C6): the adjustment table with exact
(non-wrapping) arithmetic: `avg = sum / len`, strict comparisons against
`target/2`, `target` and `2·target`, additions saturating at `u32::MAX`,
subtractions floored at 1. -/
def specDifficultyAdjustment (currentDifficulty targetBlockTime : Nat)
    (actualBlockTimes : List Nat) : Nat :=
  if actualBlockTimes.isEmpty then currentDifficulty
  else
    let avgTime := actualBlockTimes.sum / actualBlockTimes.length
    if avgTime < targetBlockTime / 2 then min (currentDifficulty + 2) U32MAX
    else if avgTime < targetBlockTime then min (currentDifficulty + 1) U32MAX
    else if 2 * targetBlockTime < avgTime then max (currentDifficulty - 2) 1
    else if targetBlockTime < avgTime then max (currentDifficulty - 1) 1
    else currentDifficulty

/-! ## LRU cache (`existing_backend/src/cache.rs`) -/

structure CacheEntry where
  nonce : Nat
  hash : String
  difficulty : Nat
  hits : Nat
  created_at : Nat
  last_accessed : Nat
deriving Repr, DecidableEq

/-- The cache: a key-value map (`HashMap`, modelled as an association list with
unique keys) plus the LRU access-order vector. -/
structure LRUCache where
  entries : List (String × CacheEntry)
  access_order : List String
deriving Repr, DecidableEq

def LRUCache.empty : LRUCache := ⟨[], []⟩

def MAX_CACHE_SIZE : Nat := 1000

/-- `make_key`: `format!("{}:{}", block_data, difficulty)`. -/
def makeKey (blockData : String) (difficulty : Nat) : String :=
  blockData ++ ":" ++ toString difficulty

/-- `HashMap::get` on the association list. -/
def entGet : List (String × CacheEntry) → String → Option CacheEntry
  | [], _ => none
  | p :: t, k => if p.1 == k then some p.2 else entGet t k

/-- In-place value update (`get_mut` followed by field writes). -/
def entSet (es : List (String × CacheEntry)) (k : String) (v : CacheEntry) :
    List (String × CacheEntry) :=
  es.map (fun p => if p.1 == k then (p.1, v) else p)

/-- `HashMap::insert`: replace the value if the key is present, else add it. -/
def entInsert (es : List (String × CacheEntry)) (k : String) (v : CacheEntry) :
    List (String × CacheEntry) :=
  if (entGet es k).isSome then entSet es k v else es ++ [(k, v)]

/-- `HashMap::remove`. -/
def entRemove (es : List (String × CacheEntry)) (k : String) : List (String × CacheEntry) :=
  es.filter (fun p => !(p.1 == k))

/-- `LRUCache::get` at time `now`: on a hit, bump `hits`, stamp `last_accessed`,
move the key to the MRU end of `access_order`, and return a copy of the entry. -/
def LRUCache.get (c : LRUCache) (now : Nat) (blockData : String) (difficulty : Nat) :
    Option CacheEntry × LRUCache :=
  match entGet c.entries (makeKey blockData difficulty) with
  | some e =>
      (some { e with hits := e.hits + 1, last_accessed := now },
       ⟨entSet c.entries (makeKey blockData difficulty)
          { e with hits := e.hits + 1, last_accessed := now },
        c.access_order.erase (makeKey blockData difficulty) ++ [makeKey blockData difficulty]⟩)
  | none => (none, c)

/-- The eviction step of `LRUCache::insert`: when at capacity and the key is
new, drop the LRU head of `access_order` and its entry. -/
def evictIfFull (c : LRUCache) (key : String) : LRUCache :=
  if MAX_CACHE_SIZE ≤ c.entries.length ∧ entGet c.entries key = none then
    match c.access_order.head? with
    | some lruKey => ⟨entRemove c.entries lruKey, c.access_order.drop 1⟩
    | none => c
  else c

/-- `LRUCache::insert` at time `now`: evict the LRU key when at capacity and the
key is new; then store the entry and push the key onto `access_order`. -/
def LRUCache.insert (c : LRUCache) (now : Nat) (blockData : String) (difficulty : Nat)
    (nonce : Nat) (hash : String) : LRUCache :=
  ⟨entInsert (evictIfFull c (makeKey blockData difficulty)).entries
     (makeKey blockData difficulty) ⟨nonce, hash, difficulty, 0, now, now⟩,
   (evictIfFull c (makeKey blockData difficulty)).access_order ++ [makeKey blockData difficulty]⟩

/-- `LRUCache::clear`. -/
def LRUCache.clear (_ : LRUCache) : LRUCache := ⟨[], []⟩

/-- `is_cached(block_data, difficulty)`: runs the mutating `get` on the shared
cache and reports whether it hit; the mutated cache persists. -/
def isCached (c : LRUCache) (now : Nat) (blockData : String) (difficulty : Nat) :
    Bool × LRUCache :=
  let r := c.get now blockData difficulty
  (r.1.isSome, r.2)

/-- One client-visible cache operation, carrying the time at which it runs. -/
inductive CacheOp where
  | get (now : Nat) (blockData : String) (difficulty : Nat)
  | insert (now : Nat) (blockData : String) (difficulty : Nat) (nonce : Nat) (hash : String)
  | clear
deriving Repr, DecidableEq

def applyCacheOp (c : LRUCache) : CacheOp → LRUCache
  | .get now bd d => (c.get now bd d).2
  | .insert now bd d nonce hash => c.insert now bd d nonce hash
  | .clear => c.clear

def runCache (c : LRUCache) : List CacheOp → LRUCache
  | [] => c
  | op :: rest => runCache (applyCacheOp c op) rest

/-- An insert is fresh when its key is not yet present. -/
def opFresh (c : LRUCache) : CacheOp → Bool
  | .insert _ bd d _ _ => (entGet c.entries (makeKey bd d)).isNone
  | _ => true

/-- The operation's timestamp does not precede the previous one. -/
def opTimeOK (t : Nat) : CacheOp → Bool
  | .get now _ _ => t ≤ now
  | .insert now _ _ _ _ => t ≤ now
  | .clear => true

def opTimeAfter (t : Nat) : CacheOp → Nat
  | .get now _ _ => now
  | .insert now _ _ _ _ => now
  | .clear => t

/-- A well-formed operation sequence: timestamps are monotone (the host clock)
and no `insert` overwrites a key that is already present. -/
def goodRun (c : LRUCache) (t : Nat) : List CacheOp → Bool
  | [] => true
  | op :: rest =>
      opFresh c op && opTimeOK t op && goodRun (applyCacheOp c op) (opTimeAfter t op) rest

/-- The `last_accessed` stamp recorded for key `k` (0 if absent). -/
def la (c : LRUCache) (k : String) : Nat :=
  ((entGet c.entries k).map CacheEntry.last_accessed).getD 0

/-- The cache representation invariant at clock bound `t`. -/
def CacheInv (c : LRUCache) (t : Nat) : Prop :=
  c.access_order.Nodup ∧
  c.access_order.Perm (c.entries.map Prod.fst) ∧
  List.Pairwise (fun k1 k2 => la c k1 ≤ la c k2) c.access_order ∧
  (∀ k ∈ c.access_order, la c k ≤ t)

/-! ## Coordinator scheduler (`coordinator/src/scheduler.rs`) -/

def ASSIGN_TIMEOUT_NS : Nat := 10000000000

def MAX_FAILURES : Nat := 3

structure MinerSlot where
  id : Nat
  busy : Bool
  assigned_at : Nat
  failures : Nat
  total_chunks : Nat
  successful_chunks : Nat
deriving Repr, DecidableEq

instance : Inhabited MinerSlot := ⟨⟨0, false, 0, 0, 0, 0⟩⟩

structure CoordinatorState where
  miners : List MinerSlot
  next_nonce : Nat
  chunk_size : Nat
  running : Bool
  rr_cursor : Nat
  solution_found : Option (Nat × String)
  total_chunks_assigned : Nat
  started_at : Nat
deriving Repr, DecidableEq

/-- `start_scheduler(miners, start_nonce, chunk_size)` at time `t0`. -/
def startScheduler (ids : List Nat) (startNonce chunkSize t0 : Nat) : CoordinatorState :=
  { miners := ids.map (fun p => ⟨p, false, 0, 0, 0, 0⟩),
    next_nonce := startNonce,
    chunk_size := chunkSize,
    running := true,
    rr_cursor := 0,
    solution_found := none,
    total_chunks_assigned := 0,
    started_at := t0 }

/-- The reclamation sweep: a busy slot whose assignment is older than the
timeout is returned to idle with one more failure. -/
def reclaimSlot (now : Nat) (m : MinerSlot) : MinerSlot :=
  if m.busy ∧ ASSIGN_TIMEOUT_NS < now - m.assigned_at then
    { m with busy := false, assigned_at := 0, failures := m.failures + 1 }
  else m

/-- The round-robin probe loop: up to `fuel` probes starting at `cursor`,
advancing the cursor modulo the roster size on every probe; skips busy or
quarantined slots.  Returns the selected index (if any) and the final cursor. -/
def findSlot (ms : List MinerSlot) (cursor : Nat) : Nat → Option Nat × Nat
  | 0 => (none, cursor)
  | fuel + 1 =>
      let n := ms.length
      let i := cursor % n
      let c := (cursor + 1) % n
      let s := ms.getD i default
      if s.busy ∨ MAX_FAILURES ≤ s.failures then findSlot ms c fuel else (some i, c)

/-- Mark a slot as assigned (`busy`, `assigned_at`, `total_chunks`). -/
def assignSlot (now : Nat) (s : MinerSlot) : MinerSlot :=
  { s with busy := true, assigned_at := now, total_chunks := s.total_chunks + 1 }

/-- The pre-RPC critical section of `schedule_once`: the already-solved check,
the reclamation sweep and the round-robin selection.  Returns the updated state
and, on a successful pick, the dispatched nonce range `(start, size)`.
`next_nonce += chunk_size` is a wrapping `u64` addition. -/
def scheduleSelect (now : Nat) (st : CoordinatorState) :
    CoordinatorState × Option (Nat × Nat) :=
  if st.solution_found.isSome then (st, none)
  else if ¬st.running ∨ st.miners.isEmpty then (st, none)
  else
    let ms := st.miners.map (reclaimSlot now)
    let sel := findSlot ms st.rr_cursor ms.length
    match sel.1 with
    | none => ({ st with miners := ms, rr_cursor := sel.2 }, none)
    | some i =>
        ({ st with
             miners := ms.set i (assignSlot now (ms.getD i default)),
             rr_cursor := sel.2,
             next_nonce := (st.next_nonce + st.chunk_size) % U64SIZE,
             total_chunks_assigned := st.total_chunks_assigned + 1 },
         some (st.next_nonce, st.chunk_size))

/-- Update slot `i` in place (`miners.get_mut(i)`; out-of-range is a no-op). -/
def updSlot (ms : List MinerSlot) (i : Nat) (f : MinerSlot → MinerSlot) : List MinerSlot :=
  ms.set i (f (ms.getD i default))

/-- One atomic state transition of the scheduler: either the pre-RPC critical
section of a tick, or the post-RPC handling of one worker response, or
`stop_scheduler`.  Responses carry the slot index of the in-flight dispatch. -/
inductive SchedEvent where
  | tick (now : Nat)
  | respFound (idx : Nat) (nonce : Nat) (hash : String)
  | respContinue (idx : Nat)
  | respError (idx : Nat)
  | stop
deriving Repr, DecidableEq

def stepEv (st : CoordinatorState) : SchedEvent → CoordinatorState × Option (Nat × Nat)
  | .tick now => scheduleSelect now st
  | .respFound i nonce hash =>
      let ms := updSlot st.miners i
        (fun s => { s with busy := false, successful_chunks := s.successful_chunks + 1 })
      ({ st with solution_found := some (nonce, hash), running := false, miners := ms }, none)
  | .respContinue i =>
      let ms := updSlot st.miners i
        (fun s => { s with busy := false, assigned_at := 0,
                           successful_chunks := s.successful_chunks + 1 })
      ({ st with miners := ms }, none)
  | .respError i =>
      let ms := updSlot st.miners i
        (fun s => { s with busy := false, assigned_at := 0, failures := s.failures + 1 })
      ({ st with miners := ms }, none)
  | .stop => ({ st with running := false }, none)

/-- Run a sequence of scheduler events, collecting the dispatched ranges in order. -/
def runSched (st : CoordinatorState) : List SchedEvent → CoordinatorState × List (Nat × Nat)
  | [] => (st, [])
  | e :: rest =>
      let p := stepEv st e
      let r := runSched p.1 rest
      (r.1, p.2.toList ++ r.2)

/-! ## Leading-zero-bit characterisation of `meets_difficulty` (claims C1, C8) -/

theorem takeWhile_append_of_all {α : Type} (p : α → Bool) (l1 l2 : List α)
    (h : ∀ x ∈ l1, p x = true) : (l1 ++ l2).takeWhile p = l1 ++ l2.takeWhile p := by
  induction l1 with
  | nil => simp
  | cons a t ih =>
      have ha : p a = true := h a (by simp)
      rw [List.cons_append, List.takeWhile_cons_of_pos ha,
          ih (fun x hx => h x (by simp [hx]))]
      simp

theorem takeWhile_append_of_stop {α : Type} (p : α → Bool) (l1 l2 : List α)
    (h : (l1.takeWhile p).length < l1.length) :
    (l1 ++ l2).takeWhile p = l1.takeWhile p := by
  induction l1 with
  | nil => simp at h
  | cons a t ih =>
      cases ha : p a with
      | false =>
          rw [List.cons_append, List.takeWhile_cons_of_neg (by simp [ha]),
              List.takeWhile_cons_of_neg (by simp [ha])]
      | true =>
          rw [List.takeWhile_cons_of_pos ha, List.length_cons] at h
          have h2 : (t.takeWhile p).length < t.length := by
            rw [List.length_cons] at h; omega
          rw [List.cons_append, List.takeWhile_cons_of_pos ha,
              List.takeWhile_cons_of_pos ha, ih h2]

theorem byteBits_length (b : Nat) : (byteBits b).length = 8 := by
  simp [byteBits]

set_option maxRecDepth 4000 in
theorem byteBits_lz : ∀ b < 256,
    ((byteBits b).takeWhile (fun x => !x)).length = leadingZeros8 b := by decide

set_option maxRecDepth 4000 in
theorem lz8_le_8 : ∀ b < 256, leadingZeros8 b ≤ 8 := by decide

set_option maxRecDepth 4000 in
theorem lz8_eq_8_iff : ∀ b < 256, (leadingZeros8 b = 8 ↔ b = 0) := by decide

theorem byteBits_zero : byteBits 0 = List.replicate 8 false := by decide

/-- The byte loop of `meets_difficulty` accepts `d` exactly when the big-endian
bit expansion of the byte list has at least `d` leading zero bits. -/
theorem meetsGo_iff (bytes : List Nat) : ∀ d : Nat, (∀ b ∈ bytes, b < 256) →
    (meetsGo bytes d = true ↔
      d ≤ ((bytes.flatMap byteBits).takeWhile (fun x => !x)).length) := by
  induction bytes with
  | nil => intro d _; simp [meetsGo, Nat.le_zero]
  | cons b rest ih =>
      intro d hb
      have hb1 : b < 256 := hb b (by simp)
      have hrest : ∀ x ∈ rest, x < 256 := fun x hx => hb x (by simp [hx])
      have hflat : (b :: rest).flatMap byteBits = byteBits b ++ rest.flatMap byteBits := by
        simp [List.flatMap_cons]
      by_cases hd0 : d = 0
      · subst hd0; simp [meetsGo]
      · by_cases hz : d ≤ leadingZeros8 b
        · -- the code returns true; the bit count is at least `d`
          have hm : meetsGo (b :: rest) d = true := by
            simp [meetsGo, hd0, hz]
          rw [hm, hflat]
          constructor
          · intro _
            by_cases hb0 : b = 0
            · subst hb0
              rw [byteBits_zero, takeWhile_append_of_all _ _ _ (by simp)]
              have hz8 : leadingZeros8 0 = 8 := by decide
              rw [hz8] at hz
              simp [List.length_append]
              omega
            · have hlt : leadingZeros8 b < 8 := by
                have h1 := lz8_le_8 b hb1
                have h2 : ¬leadingZeros8 b = 8 := fun hh => hb0 ((lz8_eq_8_iff b hb1).mp hh)
                omega
              rw [takeWhile_append_of_stop _ _ _
                (by rw [byteBits_lz b hb1, byteBits_length]; omega)]
              rw [byteBits_lz b hb1]; omega
          · intro _; rfl
        · push_neg at hz
          by_cases h8 : leadingZeros8 b < 8
          · -- the code returns false; the bit count is exactly `leadingZeros8 b < d`
            have hm : meetsGo (b :: rest) d = false := by
              simp [meetsGo, hd0, h8]
              omega
            rw [hm, hflat]
            rw [takeWhile_append_of_stop _ _ _
              (by rw [byteBits_lz b hb1, byteBits_length]; omega)]
            rw [byteBits_lz b hb1]
            simp; omega
          · -- zero byte: consume 8 bits and recurse
            push_neg at h8
            have hlz8 : leadingZeros8 b = 8 := le_antisymm (lz8_le_8 b hb1) h8
            have hb0 : b = 0 := (lz8_eq_8_iff b hb1).mp hlz8
            subst hb0
            have hm : meetsGo (0 :: rest) d = meetsGo rest (d - 8) := by
              simp [meetsGo, hd0, hlz8]
              omega
            rw [hm, hflat, byteBits_zero, takeWhile_append_of_all _ _ _ (by simp)]
            rw [ih (d - 8) hrest]
            simp only [List.length_append, List.length_replicate]
            omega

theorem meets_zero (h : List Nat) : meetsDifficulty h 0 = true := by
  cases h <;> simp [meetsDifficulty, meetsGo]

/-- C1: for every 32-byte hash `h` and difficulty `d`, `meets_difficulty h d`
holds iff the big-endian bit string of `h` begins with at least `d` leading
zero bits; in particular `meets_difficulty h 0` is always true. -/
theorem c1_meets_difficulty_iff (h : List Nat) (d : Nat) (_hlen : h.length = 32)
    (hbytes : ∀ b ∈ h, b < 256) :
    (meetsDifficulty h d = true ↔ d ≤ specLeadingZeroBits h) ∧
    meetsDifficulty h 0 = true := by
  refine ⟨?_, meets_zero h⟩
  have := meetsGo_iff h d hbytes
  simpa [meetsDifficulty, specLeadingZeroBits, hashBits] using this

/-- Witness for C1 at a concrete hash (one zero byte then `0x20`, 10 leading zero bits). -/
theorem c1_witness :
    (meetsDifficulty (0 :: 32 :: List.replicate 30 255) 10 = true ↔
      10 ≤ specLeadingZeroBits (0 :: 32 :: List.replicate 30 255)) ∧
    meetsDifficulty (0 :: 32 :: List.replicate 30 255) 0 = true :=
  c1_meets_difficulty_iff (0 :: 32 :: List.replicate 30 255) 10 (by decide) (by decide)

theorem hashBits_length (h : List Nat) : (hashBits h).length = 8 * h.length := by
  induction h with
  | nil => simp [hashBits]
  | cons b t ih =>
      simp only [hashBits, List.flatMap_cons, List.length_append, byteBits_length,
        List.length_cons] at ih ⊢
      omega

theorem all_of_takeWhile_length {α : Type} (p : α → Bool) (l : List α)
    (h : (l.takeWhile p).length = l.length) : ∀ x ∈ l, p x = true := by
  induction l with
  | nil => simp
  | cons a t ih =>
      cases ha : p a with
      | false => rw [List.takeWhile_cons_of_neg (by simp [ha])] at h; simp at h
      | true =>
          rw [List.takeWhile_cons_of_pos ha, List.length_cons, List.length_cons] at h
          intro x hx
          rcases List.mem_cons.mp hx with rfl | hx
          · exact ha
          · exact ih (by omega) x hx

set_option maxRecDepth 4000 in
theorem byteBits_all_false : ∀ b < 256,
    ((byteBits b).all (fun x => !x)) = (b == 0) := by decide

/-- Counterexample for C8 as stated: at difficulty 257 even the all-zero hash
is rejected (`remaining` ends at 1, not 0). -/
theorem c8_counterexample : meetsDifficulty (List.replicate 32 0) 257 = false := by decide

/-- C8 (amended): for a 32-byte hash and `d ≥ 256`, `meets_difficulty h d`
holds iff `d = 256` and `h` is the all-zero hash; for every `d > 256` it is
false even on the all-zero hash. -/
theorem c8_meets_above_256 (h : List Nat) (d : Nat) (hlen : h.length = 32)
    (hbytes : ∀ b ∈ h, b < 256) (hd : 256 ≤ d) :
    meetsDifficulty h d = true ↔ (d = 256 ∧ h = List.replicate 32 0) := by
  constructor
  · intro hm
    have hiff := meetsGo_iff h d hbytes
    have hle : d ≤ specLeadingZeroBits h := by
      have := hiff.mp hm
      simpa [specLeadingZeroBits, hashBits] using this
    have hpre := List.takeWhile_prefix (l := hashBits h) (fun x => !x)
    have hlz_le : specLeadingZeroBits h ≤ (hashBits h).length := hpre.length_le
    have hbl : (hashBits h).length = 256 := by rw [hashBits_length, hlen]
    have hd256 : d = 256 := by omega
    have hfull : specLeadingZeroBits h = (hashBits h).length := by
      simp only [specLeadingZeroBits] at hle hlz_le ⊢
      omega
    have hall : ∀ x ∈ hashBits h, (!x) = true :=
      all_of_takeWhile_length _ _ hfull
    have hzero : ∀ b ∈ h, b = 0 := by
      intro b hbmem
      have hb256 : b < 256 := hbytes b hbmem
      have : (byteBits b).all (fun x => !x) = true := by
        rw [List.all_eq_true]
        intro x hx
        exact hall x (List.mem_flatMap.mpr ⟨b, hbmem, hx⟩)
      rw [byteBits_all_false b hb256] at this
      simpa using this
    refine ⟨hd256, ?_⟩
    rw [List.eq_replicate_iff]
    exact ⟨hlen, hzero⟩
  · rintro ⟨rfl, rfl⟩
    decide

/-- Witness for C8 at the all-zero hash and `d = 256`. -/
theorem c8_witness :
    meetsDifficulty (List.replicate 32 0) 256 = true ↔
      ((256 : Nat) = 256 ∧ List.replicate 32 0 = List.replicate 32 (0 : Nat)) :=
  c8_meets_above_256 (List.replicate 32 0) 256 (by decide) (by decide) (by decide)

/-! ## Streaming hash = one-shot hash (claims C2, C3, C7) -/

theorem absorbGo_nil (f : Nat) (H : List Nat) : absorbGo f H [] = (H, []) := by
  cases f <;> simp [absorbGo]

theorem absorbGo_fuel (f : Nat) : ∀ (g : Nat) (H d : List Nat),
    d.length ≤ 64 * f → d.length ≤ 64 * g → absorbGo f H d = absorbGo g H d := by
  induction f with
  | zero =>
      intro g H d h1 _
      have hd : d = [] := List.eq_nil_of_length_eq_zero (by omega)
      subst hd
      rw [absorbGo_nil, absorbGo_nil]
  | succ n ih =>
      intro g H d h1 h2
      cases g with
      | zero =>
          have hd : d = [] := List.eq_nil_of_length_eq_zero (by omega)
          subst hd
          rw [absorbGo_nil, absorbGo_nil]
      | succ m =>
          simp only [absorbGo]
          by_cases hlt : d.length < 64
          · simp [hlt]
          · simp only [hlt, if_false]
            exact ih m _ _ (by simp [List.length_drop]; omega) (by simp [List.length_drop]; omega)

theorem absorb_small (H d : List Nat) (h : d.length < 64) : absorb H d = (H, d) := by
  unfold absorb
  cases e : d.length with
  | zero =>
      have hd : d = [] := List.eq_nil_of_length_eq_zero e
      subst hd
      exact absorbGo_nil _ _
  | succ k => simp [absorbGo, h]

theorem absorb_step (H d : List Nat) (h : 64 ≤ d.length) :
    absorb H d = absorb (compress H (d.take 64)) (d.drop 64) := by
  unfold absorb
  obtain ⟨k, hk⟩ : ∃ k, d.length = k + 1 := ⟨d.length - 1, by omega⟩
  rw [hk]
  simp only [absorbGo, show ¬d.length < 64 by omega, if_false]
  exact absorbGo_fuel k _ _ _ (by simp [List.length_drop]; omega) (by simp [List.length_drop]; omega)

theorem absorb_append_aux (n : Nat) : ∀ (a b H : List Nat), a.length ≤ n →
    absorb H (a ++ b) = absorb (absorb H a).1 ((absorb H a).2 ++ b) := by
  induction n with
  | zero =>
      intro a b H h
      have ha : a = [] := List.eq_nil_of_length_eq_zero (by omega)
      subst ha
      rw [absorb_small H [] (by simp)]
  | succ n ih =>
      intro a b H h
      by_cases ha : a.length < 64
      · rw [absorb_small H a ha]
      · push_neg at ha
        have htk : (a ++ b).take 64 = a.take 64 := by
          rw [List.take_append_eq_append_take, show 64 - a.length = 0 by omega]
          simp
        have hdr : (a ++ b).drop 64 = a.drop 64 ++ b := by
          rw [List.drop_append_eq_append_drop, show 64 - a.length = 0 by omega]
          simp
        rw [absorb_step H (a ++ b) (by simp [List.length_append]; omega), htk, hdr]
        rw [absorb_step H a ha]
        exact ih (a.drop 64) b _ (by simp [List.length_drop]; omega)

/-- Greedy block absorption distributes over concatenation: absorbing `a ++ b`
is absorbing `a`, then absorbing the leftover of `a` followed by `b`. -/
theorem absorb_append (a b H : List Nat) :
    absorb H (a ++ b) = absorb (absorb H a).1 ((absorb H a).2 ++ b) :=
  absorb_append_aux a.length a b H le_rfl

/-- `update` composes: feeding `a` then `b` equals feeding `a ++ b`. -/
theorem update_update (st : Sha256State) (a b : List Nat) :
    (st.update a).update b = st.update (a ++ b) := by
  simp only [Sha256State.update]
  have h := absorb_append (st.buf ++ a) b st.h
  rw [List.append_assoc] at h
  refine congrArg₂ (fun p l => Sha256State.mk p.1 p.2 l) h.symm ?_
  simp [List.length_append]
  omega

theorem chunksGo_fuel (f : Nat) : ∀ (g : Nat) (l : List Nat),
    l.length ≤ f → l.length ≤ g → chunksGo f l = chunksGo g l := by
  induction f with
  | zero =>
      intro g l h1 _
      have hl : l = [] := List.eq_nil_of_length_eq_zero (by omega)
      subst hl
      cases g <;> simp [chunksGo]
  | succ n ih =>
      intro g l h1 h2
      cases g with
      | zero =>
          have hl : l = [] := List.eq_nil_of_length_eq_zero (by omega)
          subst hl
          simp [chunksGo]
      | succ m =>
          simp only [chunksGo]
          by_cases he : l.isEmpty
          · simp [he]
          · simp only [he, if_false]
            have hlen : l.length ≠ 0 := by
              cases l
              · simp at he
              · simp
            rw [ih m (l.drop 64) (by simp [List.length_drop]; omega)
              (by simp [List.length_drop]; omega)]

theorem chunks_step (l : List Nat) (h : l ≠ []) :
    chunks l = l.take 64 :: chunks (l.drop 64) := by
  unfold chunks
  obtain ⟨k, hk⟩ : ∃ k, l.length = k + 1 := by
    cases l
    · exact absurd rfl h
    · exact ⟨_, rfl⟩
  rw [hk]
  simp only [chunksGo, show l.isEmpty = false by cases l; exact absurd rfl h; rfl, if_false]
  rw [chunksGo_fuel k (l.drop 64).length (l.drop 64)
    (by simp [List.length_drop]; omega) le_rfl]
  simp

/-- When the length is a multiple of 64, greedy absorption drains the whole
input and equals the fold of `compress` over the 64-byte chunks. -/
theorem absorb_full (n : Nat) : ∀ (M H : List Nat), M.length ≤ n → M.length % 64 = 0 →
    absorb H M = ((chunks M).foldl compress H, []) := by
  induction n with
  | zero =>
      intro M H h1 _
      have hM : M = [] := List.eq_nil_of_length_eq_zero (by omega)
      subst hM
      rw [absorb_small _ _ (by simp)]
      simp [chunks, chunksGo]
  | succ n ih =>
      intro M H h1 h2
      rcases Nat.eq_zero_or_pos M.length with hz | hpos
      · have hM : M = [] := List.eq_nil_of_length_eq_zero hz
        subst hM
        rw [absorb_small _ _ (by simp)]
        simp [chunks, chunksGo]
      · have h64 : 64 ≤ M.length := by omega
        have hne : M ≠ [] := by
          intro hcon; rw [hcon] at hpos; simp at hpos
        rw [absorb_step H M h64, chunks_step M hne]
        rw [ih (M.drop 64) _ (by simp [List.length_drop]; omega)
            (by simp [List.length_drop]; omega)]
        simp

theorem padTail_length (len : Nat) :
    (padTail len).length = 1 + (64 - (len + 9) % 64) % 64 + 8 := by
  simp [padTail, beBytes8]
  omega

theorem padded_length_mod (len : Nat) : (len + (padTail len).length) % 64 = 0 := by
  rw [padTail_length]
  omega

/-- Feeding the whole message into a fresh hasher and finalizing equals the
one-shot SHA-256 of the message. -/
theorem finalize_update (msg : List Nat) :
    (Sha256State.init.update msg).finalize = sha256 msg := by
  simp only [Sha256State.init, Sha256State.update, Sha256State.finalize, List.nil_append,
    Nat.zero_add]
  have h := absorb_append msg (padTail msg.length) HInit
  rw [absorb_full ((msg ++ padTail msg.length).length) _ _ le_rfl
      (by simp only [List.length_append]; exact padded_length_mod msg.length)] at h
  have h2 := congrArg Prod.fst h
  simp only at h2
  rw [sha256]
  rw [← h2]

/-- The mid-state hash equals the one-shot SHA-256 of `block_data ++ nonce_le8`
(shared helper for claims C2, C3, C7). -/
theorem midstate_hash (b : List Nat) (n : Nat) :
    HashMidState.finalizeWithNonce (HashMidState.new b) n = sha256 (b ++ leBytes8 n) := by
  show ((Sha256State.init.update b).update (leBytes8 n)).finalize = _
  rw [update_update, finalize_update]

/-! ## Mining loop lemmas (claims C2, C3, C7) -/

theorem mineLoopMid_eq_naive (b : List Nat) (d e : Nat) (f : Nat) : ∀ (nonce att : Nat),
    mineLoopNaive b d e f nonce att = mineLoopMid (HashMidState.new b) d e f nonce att := by
  induction f with
  | zero => intro nonce att; rfl
  | succ f ih =>
      intro nonce att
      simp only [mineLoopNaive, mineLoopMid]
      have hh : (HashMidState.new b).finalizeWithNonce nonce = naiveHash b nonce := rfl
      rw [hh]
      by_cases hc : meetsDifficulty (naiveHash b nonce) d = true <;> simp [hc, ih]

theorem mineLoopMid_found (mid : HashMidState) (d e : Nat) (f : Nat) :
    ∀ (nonce att n : Nat), nonce ≤ n → n < nonce + f →
    meetsDifficulty (mid.finalizeWithNonce n) d = true →
    (∀ m, nonce ≤ m → m < n → meetsDifficulty (mid.finalizeWithNonce m) d = false) →
    mineLoopMid mid d e f nonce att =
      (.Found (hashToHex (mid.finalizeWithNonce n)) n, att + (n - nonce)) := by
  induction f with
  | zero => intro nonce att n h1 h2 _ _; omega
  | succ f ih =>
      intro nonce att n h1 h2 h3 h4
      simp only [mineLoopMid]
      by_cases hc : meetsDifficulty (mid.finalizeWithNonce nonce) d = true
      · have hn : n = nonce := by
          by_contra hne
          have hlt : nonce < n := by omega
          rw [h4 nonce le_rfl hlt] at hc
          exact absurd hc (by simp)
        subst hn
        simp [hc]
      · have hne : n ≠ nonce := fun hcon => hc (hcon ▸ h3)
        rw [if_neg hc]
        rw [ih (nonce + 1) (att + 1) n (by omega) (by omega) h3
            (fun m hm1 hm2 => h4 m (by omega) hm2)]
        have harith : att + 1 + (n - (nonce + 1)) = att + (n - nonce) := by omega
        rw [harith]

theorem mineLoopMid_exhaust (mid : HashMidState) (d e : Nat) (f : Nat) :
    ∀ (nonce att : Nat),
    (∀ m, nonce ≤ m → m < nonce + f → meetsDifficulty (mid.finalizeWithNonce m) d = false) →
    mineLoopMid mid d e f nonce att = (.Continue e, att + f) := by
  induction f with
  | zero => intro nonce att _; rfl
  | succ f ih =>
      intro nonce att h
      simp only [mineLoopMid]
      rw [if_neg (by rw [h nonce le_rfl (by omega)]; simp)]
      rw [ih (nonce + 1) (att + 1) (fun m hm1 hm2 => h m (by omega) (by omega))]
      have harith : att + 1 + f = att + (f + 1) := by omega
      rw [harith]

/-- C3: the mid-state hash `HashMidState::new(b).finalize_with_nonce(n)` equals
the one-shot `SHA256(b || n_le8)`, and consequently `mine_chunk_naive` and
`mine_chunk_with_midstate` return identical `(MiningStatus, attempts)` pairs on
every input. -/
theorem c3_midstate_equals_naive :
    (∀ (b : List Nat) (n : Nat),
        HashMidState.finalizeWithNonce (HashMidState.new b) n = sha256 (b ++ leBytes8 n)) ∧
    (∀ (b : List Nat) (d s z : Nat), mineChunkNaive b d s z = mineChunkWithMidstate b d s z) :=
  ⟨midstate_hash,
   fun b d s z => mineLoopMid_eq_naive b d (satAdd64 s z) (satAdd64 s z - s) s 0⟩

/-- Counterexample for C2 as stated: at difficulty 0 the least solution in
`[0, 1)` is nonce 0, but the returned attempt count is `0 = n* - s`, not
`n* - s + 1`: the successful probe is not counted. -/
theorem c2_counterexample :
    meetsDifficulty (sha256 ([] ++ leBytes8 0)) 0 = true ∧
    mineChunkWithMidstate [] 0 0 1 =
      (.Found (hashToHex (sha256 ([] ++ leBytes8 0))) 0, 0) ∧
    (mineChunkWithMidstate [] 0 0 1).2 ≠ 0 - 0 + 1 := by
  refine ⟨meets_zero _, ?_, ?_⟩
  · rw [show mineChunkWithMidstate [] 0 0 1 =
        (.Found (hashToHex ((HashMidState.new []).finalizeWithNonce 0)) 0, 0) from rfl,
      midstate_hash]
  · rw [show (mineChunkWithMidstate [] 0 0 1).2 = 0 from rfl]
    omega

/-- C2 (amended): when some nonce in `[s, s ⊕ z)` meets the difficulty,
`mine_chunk_with_midstate` returns `Found` at the least such nonce `n` with the
lowercase hex of `SHA256(b || n_le8)`, and the attempt count is `n - s` — the
nonces probed before the hit, the hit itself not counted. -/
theorem c2_found_least_nonce (b : List Nat) (d s z n : Nat)
    (h1 : s ≤ n) (h2 : n < satAdd64 s z)
    (h3 : meetsDifficulty (sha256 (b ++ leBytes8 n)) d = true)
    (h4 : ∀ m, s ≤ m → m < n → meetsDifficulty (sha256 (b ++ leBytes8 m)) d = false) :
    mineChunkWithMidstate b d s z =
      (.Found (hashToHex (sha256 (b ++ leBytes8 n))) n, n - s) := by
  unfold mineChunkWithMidstate
  rw [mineLoopMid_found (HashMidState.new b) d (satAdd64 s z) (satAdd64 s z - s) s 0 n h1
      (by omega)
      (by rw [midstate_hash]; exact h3)
      (fun m hm1 hm2 => by rw [midstate_hash]; exact h4 m hm1 hm2)]
  rw [midstate_hash, Nat.zero_add]

/-- Witness for C2 at `b = []`, `d = 0`, `s = 5`, `z = 3`: the first probed
nonce hits, zero prior attempts. -/
theorem c2_witness :
    mineChunkWithMidstate [] 0 5 3 =
      (.Found (hashToHex (sha256 ([] ++ leBytes8 5))) 5, 5 - 5) :=
  c2_found_least_nonce [] 0 5 3 5 le_rfl (by decide) (meets_zero _)
    (fun m hm1 hm2 => absurd (lt_of_le_of_lt hm1 hm2) (lt_irrefl 5))

/-- C7: when no nonce in `[s, s ⊕ z)` meets the difficulty (saturating `⊕`),
`mine_chunk_with_midstate` returns `Continue` with `next_nonce = s ⊕ z` and one
attempt per nonce in the range; `z = 0` yields `Continue s` with 0 attempts and
an overflowing `s + z` is capped at `u64::MAX`. -/
theorem c7_continue_exhausted (b : List Nat) (d s z : Nat)
    (h : ∀ m, s ≤ m → m < satAdd64 s z → meetsDifficulty (sha256 (b ++ leBytes8 m)) d = false) :
    mineChunkWithMidstate b d s z = (.Continue (satAdd64 s z), satAdd64 s z - s) := by
  unfold mineChunkWithMidstate
  rw [mineLoopMid_exhaust (HashMidState.new b) d (satAdd64 s z) (satAdd64 s z - s) s 0
      (fun m hm1 hm2 => by rw [midstate_hash]; exact h m hm1 (by omega))]
  rw [Nat.zero_add]

/-- Witness for C7 at the saturation boundary: `s = u64::MAX`, `z = 5` gives an
empty range, `Continue u64::MAX` and 0 attempts. -/
theorem c7_witness :
    mineChunkWithMidstate [0] 3 U64MAX 5 =
      (.Continue (satAdd64 U64MAX 5), satAdd64 U64MAX 5 - U64MAX) := by
  refine c7_continue_exhausted [0] 3 U64MAX 5 ?_
  intro m hm1 hm2
  rw [show satAdd64 U64MAX 5 = U64MAX by decide] at hm2
  exact absurd hm2 (Nat.not_lt.mpr hm1)

/-! ## Difficulty adjustment (claim C6) -/

theorem wrapSum64_aux (l : List Nat) : ∀ a : Nat, a < U64SIZE →
    l.foldl (fun x y => (x + y) % U64SIZE) a = (a + l.sum) % U64SIZE := by
  induction l with
  | nil => intro a ha; simp [Nat.mod_eq_of_lt ha]
  | cons b t ih =>
      intro a ha
      simp only [List.foldl_cons, List.sum_cons]
      rw [ih ((a + b) % U64SIZE) (Nat.mod_lt _ (by decide))]
      rw [Nat.mod_add_mod, Nat.add_assoc]

theorem wrapSum64_eq (l : List Nat) : wrapSum64 l = l.sum % U64SIZE := by
  unfold wrapSum64
  rw [wrapSum64_aux l 0 (by decide)]
  simp

/-- Counterexample for C6 as stated: at `target = 2^63` the comparison
`avg > 2·target` is made against the wrapped product `2·target mod 2^64 = 0`,
so the code takes the −2 branch where the claimed table takes −1. -/
theorem c6_counterexample :
    calculateDifficultyAdjustment 10 (2 ^ 63) [2 ^ 63 + 1] = 8 ∧
    specDifficultyAdjustment 10 (2 ^ 63) [2 ^ 63 + 1] = 9 := by
  constructor <;> decide

/-- C6 (amended): whenever the sum of the reported times and the product
`2·target` fit in a `u64` (no wrapping), `calculate_difficulty_adjustment`
computes exactly the claimed table: `current` on an empty list, else with
`avg = sum / len` (integer division), `+2` saturating if `avg < target/2`,
`+1` saturating if `avg < target`, `max(current − 2, 1)` if `avg > 2·target`,
`max(current − 1, 1)` if `avg > target`, else `current` — ties falling to the
smaller-adjustment or no-change branch. -/
theorem c6_adjustment_table (cur target : Nat) (times : List Nat)
    (h1 : times.sum < U64SIZE) (h2 : target * 2 < U64SIZE) :
    calculateDifficultyAdjustment cur target times =
      specDifficultyAdjustment cur target times := by
  unfold calculateDifficultyAdjustment specDifficultyAdjustment
  by_cases he : times.isEmpty = true
  · simp [he]
  · simp only [he, if_false]
    rw [wrapSum64_eq, Nat.mod_eq_of_lt h1, Nat.mod_eq_of_lt h2, Nat.mul_comm target 2]
    rfl

/-- Witness for C6: `target = 30`, times `[10, 20]`, `avg = 15` lies in
`[target/2, target)` so both sides return `cur + 1`. -/
theorem c6_witness :
    calculateDifficultyAdjustment 5 30 [10, 20] = specDifficultyAdjustment 5 30 [10, 20] :=
  c6_adjustment_table 5 30 [10, 20] (by decide) (by decide)

/-! ## Scheduler latch (claim C5) -/

theorem scheduleSelect_running (now : Nat) (st : CoordinatorState) :
    (scheduleSelect now st).1.running = st.running ∧
    (scheduleSelect now st).1.solution_found = st.solution_found := by
  unfold scheduleSelect
  by_cases h1 : st.solution_found.isSome = true
  · rw [if_pos h1]; exact ⟨rfl, rfl⟩
  · rw [if_neg h1]
    by_cases h2 : ¬st.running = true ∨ st.miners.isEmpty = true
    · rw [if_pos h2]; exact ⟨rfl, rfl⟩
    · rw [if_neg h2]
      dsimp only
      cases (findSlot (st.miners.map (reclaimSlot now)) st.rr_cursor
          (st.miners.map (reclaimSlot now)).length).1 with
      | none => exact ⟨rfl, rfl⟩
      | some i => exact ⟨rfl, rfl⟩

theorem stepEv_preserves_latch (st : CoordinatorState) (e : SchedEvent)
    (hP : st.solution_found.isSome = true → st.running = false) :
    (stepEv st e).1.solution_found.isSome = true → (stepEv st e).1.running = false := by
  cases e with
  | tick now =>
      intro hs
      have h := scheduleSelect_running now st
      simp only [stepEv] at hs ⊢
      rw [h.2] at hs
      rw [h.1]
      exact hP hs
  | respFound i nonce hash => intro _; rfl
  | respContinue i => exact hP
  | respError i => exact hP
  | stop => intro _; rfl

theorem runSched_latch_inv (evs : List SchedEvent) : ∀ st : CoordinatorState,
    (st.solution_found.isSome = true → st.running = false) →
    ((runSched st evs).1.solution_found.isSome = true → (runSched st evs).1.running = false) := by
  induction evs with
  | nil => intro st hP; exact hP
  | cons e rest ih =>
      intro st hP
      simp only [runSched]
      exact ih _ (stepEv_preserves_latch st e hP)

/-- C5: a `Found` response latches `solution_found` and clears `running` in the
same critical section; a tick on a latched state returns immediately with the
state untouched and no chunk selected; and in any run started by
`start_scheduler`, `running = true` together with a latched solution is
unreachable. -/
theorem c5_latch_terminal :
    (∀ (st : CoordinatorState) (i nonce : Nat) (hash : String),
        (stepEv st (.respFound i nonce hash)).1.solution_found = some (nonce, hash) ∧
        (stepEv st (.respFound i nonce hash)).1.running = false) ∧
    (∀ (st : CoordinatorState) (now : Nat),
        st.solution_found.isSome = true → stepEv st (.tick now) = (st, none)) ∧
    (∀ (ids : List Nat) (s0 z t0 : Nat) (evs : List SchedEvent),
        (runSched (startScheduler ids s0 z t0) evs).1.solution_found.isSome = true →
        (runSched (startScheduler ids s0 z t0) evs).1.running = false) := by
  refine ⟨fun st i nonce hash => ⟨rfl, rfl⟩, fun st now hs => ?_, fun ids s0 z t0 evs => ?_⟩
  · simp [stepEv, scheduleSelect, hs]
  · exact runSched_latch_inv evs _ (by simp [startScheduler])

/-- Witness for C5: a latched state absorbs a tick unchanged, and a run that
latches a solution ends with `running = false`. -/
theorem c5_witness :
    stepEv ⟨[], 0, 1, true, 0, some (7, "h"), 0, 0⟩ (.tick 3) =
      (⟨[], 0, 1, true, 0, some (7, "h"), 0, 0⟩, none) ∧
    (runSched (startScheduler [0] 0 1 0) [.respFound 0 7 "h"]).1.running = false :=
  ⟨c5_latch_terminal.2.1 ⟨[], 0, 1, true, 0, some (7, "h"), 0, 0⟩ 3 rfl,
   c5_latch_terminal.2.2 [0] 0 1 0 [.respFound 0 7 "h"] rfl⟩

/-! ## Scheduler nonce ranges (claim C4) -/

theorem stepEv_chunk_size (st : CoordinatorState) (e : SchedEvent) :
    (stepEv st e).1.chunk_size = st.chunk_size := by
  cases e with
  | tick now =>
      simp only [stepEv]
      unfold scheduleSelect
      by_cases h1 : st.solution_found.isSome = true
      · rw [if_pos h1]
      · rw [if_neg h1]
        by_cases h2 : ¬st.running = true ∨ st.miners.isEmpty = true
        · rw [if_pos h2]
        · rw [if_neg h2]
          dsimp only
          cases (findSlot (st.miners.map (reclaimSlot now)) st.rr_cursor
              (st.miners.map (reclaimSlot now)).length).1 <;> rfl
  | respFound i nonce hash => rfl
  | respContinue i => rfl
  | respError i => rfl
  | stop => rfl

/-- Every step either dispatches nothing and leaves `next_nonce` alone, or
dispatches exactly `(next_nonce, chunk_size)` and advances `next_nonce` by
`chunk_size` (wrapping). -/
theorem stepEv_pick (st : CoordinatorState) (e : SchedEvent) :
    ((stepEv st e).2 = none ∧ (stepEv st e).1.next_nonce = st.next_nonce) ∨
    ((stepEv st e).2 = some (st.next_nonce, st.chunk_size) ∧
      (stepEv st e).1.next_nonce = (st.next_nonce + st.chunk_size) % U64SIZE) := by
  cases e with
  | tick now =>
      simp only [stepEv]
      unfold scheduleSelect
      by_cases h1 : st.solution_found.isSome = true
      · rw [if_pos h1]; exact Or.inl ⟨rfl, rfl⟩
      · rw [if_neg h1]
        by_cases h2 : ¬st.running = true ∨ st.miners.isEmpty = true
        · rw [if_pos h2]; exact Or.inl ⟨rfl, rfl⟩
        · rw [if_neg h2]
          dsimp only
          cases (findSlot (st.miners.map (reclaimSlot now)) st.rr_cursor
              (st.miners.map (reclaimSlot now)).length).1 with
          | none => exact Or.inl ⟨rfl, rfl⟩
          | some i => exact Or.inr ⟨rfl, rfl⟩
  | respFound i nonce hash => exact Or.inl ⟨rfl, rfl⟩
  | respContinue i => exact Or.inl ⟨rfl, rfl⟩
  | respError i => exact Or.inl ⟨rfl, rfl⟩
  | stop => exact Or.inl ⟨rfl, rfl⟩

/-- In any run without `u64` overflow of `next_nonce`, the `k`-th dispatched
range is `[next_nonce + k·chunk_size, ... + chunk_size)`. -/
theorem runSched_ranges (evs : List SchedEvent) : ∀ st : CoordinatorState,
    st.next_nonce + ((runSched st evs).2).length * st.chunk_size < U64SIZE →
    ∀ k, k < ((runSched st evs).2).length →
      ((runSched st evs).2).getD k (0, 0) =
        (st.next_nonce + k * st.chunk_size, st.chunk_size) := by
  induction evs with
  | nil => intro st _ k hk; simp [runSched] at hk
  | cons e rest ih =>
      intro st hov k hk
      simp only [runSched] at hov hk ⊢
      have hcs := stepEv_chunk_size st e
      rcases stepEv_pick st e with ⟨hnone, hnn⟩ | ⟨hsome, hnn⟩
      · rw [hnone] at hov hk ⊢
        simp only [Option.toList_none, List.nil_append] at hov hk ⊢
        have := ih (stepEv st e).1 (by rw [hnn, hcs]; exact hov) k hk
        rw [hnn, hcs] at this
        exact this
      · rw [hsome] at hov hk ⊢
        simp only [Option.toList_some, List.singleton_append, List.length_cons] at hov hk ⊢
        have hz : st.next_nonce + st.chunk_size < U64SIZE := by
          rw [Nat.succ_mul] at hov
          omega
        have hnn' : (stepEv st e).1.next_nonce = st.next_nonce + st.chunk_size := by
          rw [hnn]
          exact Nat.mod_eq_of_lt hz
        cases k with
        | zero => simp
        | succ k =>
            have hov' : (stepEv st e).1.next_nonce +
                ((runSched (stepEv st e).1 rest).2).length * (stepEv st e).1.chunk_size <
                  U64SIZE := by
              rw [hnn', hcs]
              rw [Nat.succ_mul] at hov
              omega
            have := ih (stepEv st e).1 hov' k (by omega)
            rw [hnn', hcs] at this
            simp only [List.getD_cons_succ]
            rw [this]
            have harith : st.next_nonce + st.chunk_size + k * st.chunk_size =
                st.next_nonce + (k + 1) * st.chunk_size := by
              rw [Nat.succ_mul]
              omega
            rw [harith]

/-- A list of ranges following the arithmetic progression `(s0 + k·z, z)` is
ordered by start and pairwise disjoint. -/
theorem ranges_props (ps : List (Nat × Nat)) : ∀ s0 z : Nat,
    (∀ k, k < ps.length → ps.getD k (0, 0) = (s0 + k * z, z)) →
    List.Chain' (fun p q => p.1 ≤ q.1) ps ∧
    List.Pairwise (fun p q => ∀ x : Nat,
      ¬(p.1 ≤ x ∧ x < p.1 + p.2 ∧ q.1 ≤ x ∧ x < q.1 + q.2)) ps := by
  induction ps with
  | nil => intro s0 z _; exact ⟨List.chain'_nil, List.Pairwise.nil⟩
  | cons p t ihp =>
      intro s0 z hform
      have hp : p = (s0, z) := by
        have := hform 0 (by simp)
        simpa using this
      have hformt : ∀ k, k < t.length → t.getD k (0, 0) = ((s0 + z) + k * z, z) := by
        intro k hk
        have := hform (k + 1) (by simp; omega)
        rw [List.getD_cons_succ] at this
        rw [this]
        have : s0 + (k + 1) * z = s0 + z + k * z := by rw [Nat.succ_mul]; omega
        rw [this]
      obtain ⟨hchain, hpw⟩ := ihp (s0 + z) z hformt
      have hmem : ∀ q ∈ t, ∃ j, q = ((s0 + z) + j * z, z) := by
        intro q hq
        obtain ⟨j, hj, hget⟩ := List.mem_iff_getElem.mp hq
        refine ⟨j, ?_⟩
        rw [← hget, ← List.getD_eq_getElem t (0, 0) hj, hformt j hj]
      constructor
      · rw [List.chain'_cons']
        refine ⟨?_, hchain⟩
        intro q hq
        have hqm : q ∈ t := by
          cases t with
          | nil => simp at hq
          | cons q0 tt =>
              simp only [List.head?_cons, Option.mem_def, Option.some_inj] at hq
              simp [hq]
        obtain ⟨j, rfl⟩ := hmem q hqm
        rw [hp]
        simp
        omega
      · rw [List.pairwise_cons]
        refine ⟨?_, hpw⟩
        intro q hq x hx
        obtain ⟨j, rfl⟩ := hmem q hq
        rw [hp] at hx
        simp only at hx
        omega

/-- Counterexample for C4 as stated: with `chunk_size = 2^63`, `next_nonce`
wraps after two dispatches, the third range re-covers `[0, 2^63)`; the starts
are not monotone and the ranges are not pairwise disjoint. -/
theorem c4_counterexample :
    (runSched (startScheduler [0, 1, 2] 0 (2 ^ 63) 0) [.tick 1, .tick 1, .tick 1]).2 =
      [(0, 2 ^ 63), (2 ^ 63, 2 ^ 63), (0, 2 ^ 63)] ∧
    ¬ List.Chain' (fun p q => p.1 ≤ q.1)
        ((runSched (startScheduler [0, 1, 2] 0 (2 ^ 63) 0) [.tick 1, .tick 1, .tick 1]).2) ∧
    ¬ List.Pairwise (fun p q => ∀ x : Nat,
          ¬(p.1 ≤ x ∧ x < p.1 + p.2 ∧ q.1 ≤ x ∧ x < q.1 + q.2))
        ((runSched (startScheduler [0, 1, 2] 0 (2 ^ 63) 0) [.tick 1, .tick 1, .tick 1]).2) := by
  have hruns : (runSched (startScheduler [0, 1, 2] 0 (2 ^ 63) 0)
      [.tick 1, .tick 1, .tick 1]).2 = [(0, 2 ^ 63), (2 ^ 63, 2 ^ 63), (0, 2 ^ 63)] := by
    rfl
  refine ⟨hruns, ?_, ?_⟩
  · intro h
    rw [hruns] at h
    have := (List.chain'_cons.mp (List.chain'_cons.mp h).2).1
    simp only at this
    omega
  · intro h
    rw [hruns] at h
    have := (List.pairwise_cons.mp h).1 (0, 2 ^ 63) (by simp)
    have h0 := this 0
    simp only at h0
    omega

/-- C4 (amended): in any run of the scheduler from
`start_scheduler(ids, s0, z)` in which `next_nonce` never overflows `u64`, the
`k`-th dispatched chunk is exactly the half-open range starting at
`s0 + k·z` (the value of `next_nonce` at selection time) of size `z`; starts
are monotone and distinct dispatched ranges are pairwise disjoint. -/
theorem c4_disjoint_dispatches (ids : List Nat) (s0 z t0 : Nat) (evs : List SchedEvent)
    (hov : s0 + ((runSched (startScheduler ids s0 z t0) evs).2).length * z < U64SIZE) :
    (∀ k, k < ((runSched (startScheduler ids s0 z t0) evs).2).length →
        ((runSched (startScheduler ids s0 z t0) evs).2).getD k (0, 0) = (s0 + k * z, z)) ∧
    List.Chain' (fun p q => p.1 ≤ q.1) ((runSched (startScheduler ids s0 z t0) evs).2) ∧
    List.Pairwise (fun p q => ∀ x : Nat,
        ¬(p.1 ≤ x ∧ x < p.1 + p.2 ∧ q.1 ≤ x ∧ x < q.1 + q.2))
      ((runSched (startScheduler ids s0 z t0) evs).2) := by
  have hform := runSched_ranges evs (startScheduler ids s0 z t0) hov
  exact ⟨hform, ranges_props _ s0 z hform⟩

/-- Witness for C4: two miners, two ticks from 1000 with chunk 100 dispatch
`[1000, 1100)` then `[1100, 1200)`. -/
theorem c4_witness :
    (∀ k, k < ((runSched (startScheduler [5, 6] 1000 100 0) [.tick 1, .tick 1]).2).length →
        ((runSched (startScheduler [5, 6] 1000 100 0) [.tick 1, .tick 1]).2).getD k (0, 0) =
          (1000 + k * 100, 100)) ∧
    List.Chain' (fun p q => p.1 ≤ q.1)
      ((runSched (startScheduler [5, 6] 1000 100 0) [.tick 1, .tick 1]).2) ∧
    List.Pairwise (fun p q => ∀ x : Nat,
        ¬(p.1 ≤ x ∧ x < p.1 + p.2 ∧ q.1 ≤ x ∧ x < q.1 + q.2))
      ((runSched (startScheduler [5, 6] 1000 100 0) [.tick 1, .tick 1]).2) :=
  c4_disjoint_dispatches [5, 6] 1000 100 0 [.tick 1, .tick 1] (by decide)

/-! ## LRU cache invariants (claims C9, C10) -/

theorem entSet_map_fst (es : List (String × CacheEntry)) (k : String) (v : CacheEntry) :
    (entSet es k v).map Prod.fst = es.map Prod.fst := by
  induction es with
  | nil => rfl
  | cons p t ih =>
      simp only [entSet, List.map_cons] at ih ⊢
      refine congrArg₂ (· :: ·) ?_ ih
      by_cases hp : (p.1 == k) = true <;> simp [hp]

theorem entGet_entSet_self (es : List (String × CacheEntry)) (k : String) (v : CacheEntry) :
    entGet (entSet es k v) k = (entGet es k).map (fun _ => v) := by
  induction es with
  | nil => rfl
  | cons p t ih =>
      by_cases hp : (p.1 == k) = true
      · simp [entSet, entGet, hp]
      · simp only [entSet, List.map_cons, hp, if_false, Bool.false_eq_true]
        simp only [entGet, hp, if_false, Bool.false_eq_true]
        simp only [entSet] at ih
        exact ih

theorem entGet_entSet_ne (es : List (String × CacheEntry)) (k : String) (v : CacheEntry)
    (q : String) (h : q ≠ k) : entGet (entSet es k v) q = entGet es q := by
  induction es with
  | nil => rfl
  | cons p t ih =>
      by_cases hp : (p.1 == k) = true
      · have hpk : p.1 = k := by simpa using hp
        have hq : (p.1 == q) = false := by
          simp only [beq_eq_false_iff_ne, ne_eq, hpk]
          exact fun hc => h hc.symm
        simp only [entSet, List.map_cons, hp, if_true, entGet, hq, if_false, Bool.false_eq_true]
        simp only [entSet] at ih
        exact ih
      · by_cases hq : (p.1 == q) = true
        · simp [entSet, entGet, hp, hq]
        · simp only [entSet, List.map_cons, hp, if_false, Bool.false_eq_true, entGet, hq]
          simp only [entSet] at ih
          exact ih

theorem entGet_entRemove_self (es : List (String × CacheEntry)) (k : String) :
    entGet (entRemove es k) k = none := by
  induction es with
  | nil => rfl
  | cons p t ih =>
      by_cases hp : (p.1 == k) = true
      · simp only [entRemove, List.filter_cons, hp, Bool.not_true, if_false, Bool.false_eq_true]
        simp only [entRemove] at ih
        exact ih
      · simp only [entRemove, List.filter_cons, hp, Bool.not_false]
        simp only [entGet, hp, if_false, Bool.false_eq_true]
        simp only [entRemove] at ih
        exact ih

theorem entGet_entRemove_ne (es : List (String × CacheEntry)) (k : String)
    (q : String) (h : q ≠ k) : entGet (entRemove es k) q = entGet es q := by
  induction es with
  | nil => rfl
  | cons p t ih =>
      by_cases hp : (p.1 == k) = true
      · have hpk : p.1 = k := by simpa using hp
        have hq : (p.1 == q) = false := by
          simp only [beq_eq_false_iff_ne, ne_eq, hpk]
          exact fun hc => h hc.symm
        simp only [entRemove, List.filter_cons, hp, Bool.not_true, if_false, Bool.false_eq_true,
          entGet, hq]
        simp only [entRemove] at ih
        exact ih
      · simp only [entRemove, List.filter_cons, hp, Bool.not_false]
        simp only [entGet]
        by_cases hq : (p.1 == q) = true
        · simp [hq]
        · simp only [hq, if_false, Bool.false_eq_true]
          simp only [entRemove] at ih
          exact ih

theorem entRemove_map_fst (es : List (String × CacheEntry)) (k : String) :
    (entRemove es k).map Prod.fst = (es.map Prod.fst).filter (fun x => !(x == k)) := by
  induction es with
  | nil => rfl
  | cons p t ih =>
      by_cases hp : (p.1 == k) = true <;>
        simp only [entRemove, List.filter_cons, List.map_cons, hp, Bool.not_true,
          Bool.not_false, if_false, if_true, Bool.false_eq_true] <;>
        simp only [entRemove] at ih <;> simp [ih]

theorem entGet_append_fresh (es : List (String × CacheEntry)) (k : String) (v : CacheEntry)
    (h : entGet es k = none) : entGet (es ++ [(k, v)]) k = some v := by
  induction es with
  | nil => simp [entGet]
  | cons p t ih =>
      by_cases hp : (p.1 == k) = true
      · rw [entGet, if_pos hp] at h
        exact absurd h (by simp)
      · rw [entGet, if_neg (by simp [hp])] at h
        rw [List.cons_append, entGet, if_neg (by simp [hp])]
        exact ih h

theorem entGet_append_ne (es : List (String × CacheEntry)) (k : String) (v : CacheEntry)
    (q : String) (h : q ≠ k) : entGet (es ++ [(k, v)]) q = entGet es q := by
  induction es with
  | nil =>
      simp only [List.nil_append, entGet]
      rw [if_neg (by simp; exact fun hc => h hc.symm)]
  | cons p t ih =>
      by_cases hq : (p.1 == q) = true
      · simp [entGet, hq]
      · rw [List.cons_append, entGet, if_neg (by simp_all), entGet, if_neg (by simp_all)]
        exact ih

theorem entGet_entRemove_none (es : List (String × CacheEntry)) (k q : String)
    (h : entGet es q = none) : entGet (entRemove es k) q = none := by
  by_cases hq : q = k
  · subst hq; exact entGet_entRemove_self es q
  · rw [entGet_entRemove_ne es k q hq]; exact h

theorem entInsert_fresh (es : List (String × CacheEntry)) (k : String) (v : CacheEntry)
    (h : entGet es k = none) : entInsert es k v = es ++ [(k, v)] := by
  unfold entInsert
  rw [h]
  rfl

theorem entGet_isSome_iff (es : List (String × CacheEntry)) (k : String) :
    (entGet es k).isSome = true ↔ k ∈ es.map Prod.fst := by
  induction es with
  | nil => simp [entGet]
  | cons p t ih =>
      by_cases hp : (p.1 == k) = true
      · have hpk : p.1 = k := by simpa using hp
        simp [entGet, hp, hpk]
      · have hpk : ¬p.1 = k := by simpa using hp
        rw [entGet, if_neg (by simp [hp])]
        simp only [List.map_cons, List.mem_cons]
        rw [ih]
        constructor
        · exact Or.inr
        · rintro (hc | hc)
          · exact absurd hc.symm hpk
          · exact hc

/-- A cache-hit update (`get` on a present key at time `now`) preserves the
representation invariant. -/
theorem inv_hit (c : LRUCache) (t now : Nat) (key : String) (e2 : CacheEntry)
    (hI : CacheInv c t) (ht : t ≤ now) (hsome : (entGet c.entries key).isSome = true)
    (he2 : e2.last_accessed = now) :
    CacheInv ⟨entSet c.entries key e2, c.access_order.erase key ++ [key]⟩ now := by
  obtain ⟨hnd, hperm, hsort, hbound⟩ := hI
  have hmemK : key ∈ c.access_order :=
    hperm.mem_iff.mpr ((entGet_isSome_iff _ _).mp hsome)
  have hget_key : entGet (entSet c.entries key e2) key = some e2 := by
    rw [entGet_entSet_self]
    obtain ⟨e, he⟩ := Option.isSome_iff_exists.mp hsome
    rw [he]
    rfl
  have hla_key : la ⟨entSet c.entries key e2, c.access_order.erase key ++ [key]⟩ key = now := by
    simp [la, hget_key, he2]
  have hla_ne : ∀ q, q ≠ key →
      la ⟨entSet c.entries key e2, c.access_order.erase key ++ [key]⟩ q = la c q := by
    intro q hq
    simp [la, entGet_entSet_ne c.entries key e2 q hq]
  refine ⟨?_, ?_, ?_, ?_⟩
  · rw [List.nodup_append]
    exact ⟨hnd.erase key, List.nodup_singleton key,
      fun a ha hb => by
        rw [List.mem_singleton] at hb
        subst hb
        exact hnd.not_mem_erase ha⟩
  · show List.Perm (c.access_order.erase key ++ [key]) ((entSet c.entries key e2).map Prod.fst)
    rw [entSet_map_fst]
    exact ((List.perm_append_singleton key _).trans
      (List.perm_cons_erase hmemK).symm).trans hperm
  · rw [List.pairwise_append]
    refine ⟨?_, List.pairwise_singleton _ _, ?_⟩
    · have hsub : List.Pairwise (fun k1 k2 => la c k1 ≤ la c k2) (c.access_order.erase key) :=
        hsort.sublist (List.erase_sublist key c.access_order)
      refine hsub.imp_of_mem ?_
      intro a b ha hb hab
      rw [hla_ne a ((hnd.mem_erase_iff.mp ha).1), hla_ne b ((hnd.mem_erase_iff.mp hb).1)]
      exact hab
    · intro a ha b hb
      rw [List.mem_singleton] at hb
      subst hb
      rw [hla_ne a ((hnd.mem_erase_iff.mp ha).1), hla_key]
      exact le_trans (hbound a (List.mem_of_mem_erase ha)) ht
  · intro k hk
    rcases List.mem_append.mp hk with hk | hk
    · rw [hla_ne k ((hnd.mem_erase_iff.mp hk).1)]
      exact le_trans (hbound k (List.mem_of_mem_erase hk)) ht
    · rw [List.mem_singleton] at hk
      subst hk
      rw [hla_key]

/-- `get` preserves the invariant (hit or miss), bumping the clock to `now`. -/
theorem inv_get (c : LRUCache) (t now : Nat) (bd : String) (d : Nat)
    (hI : CacheInv c t) (ht : t ≤ now) : CacheInv (c.get now bd d).2 now := by
  unfold LRUCache.get
  cases hE : entGet c.entries (makeKey bd d) with
  | none =>
      obtain ⟨hnd, hperm, hsort, hbound⟩ := hI
      exact ⟨hnd, hperm, hsort, fun k hk => le_trans (hbound k hk) ht⟩
  | some e =>
      exact inv_hit c t now (makeKey bd d) _ hI ht (by rw [hE]; rfl) rfl

/-- Evicting the LRU head preserves the invariant. -/
theorem inv_evict (c : LRUCache) (t : Nat) (lru : String) (tail : List String)
    (hI : CacheInv c t) (horder : c.access_order = lru :: tail) :
    CacheInv ⟨entRemove c.entries lru, tail⟩ t := by
  obtain ⟨hnd, hperm, hsort, hbound⟩ := hI
  rw [horder] at hnd hperm hsort hbound
  have hndc := List.nodup_cons.mp hnd
  have hla_ne : ∀ q, q ≠ lru → la ⟨entRemove c.entries lru, tail⟩ q = la c q := by
    intro q hq
    simp [la, entGet_entRemove_ne c.entries lru q hq]
  have hne_of_mem : ∀ q ∈ tail, q ≠ lru := by
    intro q hq hcon
    subst hcon
    exact hndc.1 hq
  refine ⟨hndc.2, ?_, ?_, ?_⟩
  · show List.Perm tail ((entRemove c.entries lru).map Prod.fst)
    rw [entRemove_map_fst]
    have hkeys_nodup : (c.entries.map Prod.fst).Nodup := hperm.nodup hnd
    have herase : (c.entries.map Prod.fst).erase lru =
        (c.entries.map Prod.fst).filter (fun x => !(x == lru)) :=
      hkeys_nodup.erase_eq_filter lru
    rw [← herase]
    have h1 : List.Perm ((lru :: tail).erase lru) ((c.entries.map Prod.fst).erase lru) :=
      hperm.erase lru
    rw [List.erase_cons_head] at h1
    exact h1
  · have htail : List.Pairwise (fun k1 k2 => la c k1 ≤ la c k2) tail :=
      (List.pairwise_cons.mp hsort).2
    refine htail.imp_of_mem ?_
    intro a b ha hb hab
    rw [hla_ne a (hne_of_mem a ha), hla_ne b (hne_of_mem b hb)]
    exact hab
  · intro k hk
    rw [hla_ne k (hne_of_mem k hk)]
    exact hbound k (List.mem_cons_of_mem lru hk)

/-- Appending a fresh entry stamped `now` preserves the invariant. -/
theorem inv_append_fresh (c : LRUCache) (t now : Nat) (key : String) (v : CacheEntry)
    (hI : CacheInv c t) (ht : t ≤ now) (hfresh : entGet c.entries key = none)
    (hv : v.last_accessed = now) :
    CacheInv ⟨c.entries ++ [(key, v)], c.access_order ++ [key]⟩ now := by
  obtain ⟨hnd, hperm, hsort, hbound⟩ := hI
  have hknotmem : key ∉ c.access_order := by
    intro hmem
    have := (entGet_isSome_iff c.entries key).mpr (hperm.mem_iff.mp hmem)
    rw [hfresh] at this
    simp at this
  have hget_key : entGet (c.entries ++ [(key, v)]) key = some v :=
    entGet_append_fresh c.entries key v hfresh
  have hla_key : la ⟨c.entries ++ [(key, v)], c.access_order ++ [key]⟩ key = now := by
    simp [la, hget_key, hv]
  have hla_ne : ∀ q, q ≠ key →
      la ⟨c.entries ++ [(key, v)], c.access_order ++ [key]⟩ q = la c q := by
    intro q hq
    simp [la, entGet_append_ne c.entries key v q hq]
  have hne_of_mem : ∀ q ∈ c.access_order, q ≠ key := by
    intro q hq hcon
    subst hcon
    exact hknotmem hq
  refine ⟨?_, ?_, ?_, ?_⟩
  · rw [List.nodup_append]
    exact ⟨hnd, List.nodup_singleton key,
      fun a ha hb => by
        rw [List.mem_singleton] at hb
        subst hb
        exact hknotmem ha⟩
  · show List.Perm (c.access_order ++ [key]) ((c.entries ++ [(key, v)]).map Prod.fst)
    rw [List.map_append]
    exact hperm.append_right _
  · rw [List.pairwise_append]
    refine ⟨?_, List.pairwise_singleton _ _, ?_⟩
    · refine hsort.imp_of_mem ?_
      intro a b ha hb hab
      rw [hla_ne a (hne_of_mem a ha), hla_ne b (hne_of_mem b hb)]
      exact hab
    · intro a ha b hb
      rw [List.mem_singleton] at hb
      subst hb
      rw [hla_ne a (hne_of_mem a ha), hla_key]
      exact le_trans (hbound a ha) ht
  · intro k hk
    rcases List.mem_append.mp hk with hk | hk
    · rw [hla_ne k (hne_of_mem k hk)]
      exact le_trans (hbound k hk) ht
    · rw [List.mem_singleton] at hk
      subst hk
      rw [hla_key]

/-- The eviction step preserves the invariant and the freshness of the key. -/
theorem inv_evictIfFull (c : LRUCache) (t : Nat) (key : String)
    (hI : CacheInv c t) (hfresh : entGet c.entries key = none) :
    CacheInv (evictIfFull c key) t ∧ entGet (evictIfFull c key).entries key = none := by
  unfold evictIfFull
  by_cases hcap : MAX_CACHE_SIZE ≤ c.entries.length ∧ entGet c.entries key = none
  · rw [if_pos hcap]
    cases horder : c.access_order with
    | nil => exact ⟨hI, hfresh⟩
    | cons lru tail =>
        simp only [List.head?_cons, List.drop_succ_cons, List.drop_zero]
        exact ⟨inv_evict c t lru tail hI horder,
          entGet_entRemove_none c.entries lru key hfresh⟩
  · rw [if_neg hcap]
    exact ⟨hI, hfresh⟩

/-- A fresh `insert` (evicting if at capacity) preserves the invariant. -/
theorem inv_insert (c : LRUCache) (t now : Nat) (bd : String) (d nonce : Nat) (hsh : String)
    (hI : CacheInv c t) (ht : t ≤ now) (hfresh : entGet c.entries (makeKey bd d) = none) :
    CacheInv (c.insert now bd d nonce hsh) now := by
  unfold LRUCache.insert
  obtain ⟨hI1, hfresh1⟩ := inv_evictIfFull c t (makeKey bd d) hI hfresh
  rw [entInsert_fresh _ _ _ hfresh1]
  exact inv_append_fresh (evictIfFull c (makeKey bd d)) t now (makeKey bd d) _
    hI1 ht hfresh1 rfl

theorem inv_empty : CacheInv LRUCache.empty 0 :=
  ⟨List.nodup_nil, List.Perm.nil, List.Pairwise.nil, by intro k hk; simp [LRUCache.empty] at hk⟩

theorem applyOp_inv (c : LRUCache) (t : Nat) (op : CacheOp)
    (hI : CacheInv c t) (hok : (opFresh c op && opTimeOK t op) = true) :
    CacheInv (applyCacheOp c op) (opTimeAfter t op) := by
  cases op with
  | get now bd d =>
      have ht : t ≤ now := by simpa [opFresh, opTimeOK] using hok
      exact inv_get c t now bd d hI ht
  | insert now bd d nonce hsh =>
      simp only [opFresh, opTimeOK, Bool.and_eq_true, Option.isNone_iff_eq_none,
        decide_eq_true_eq] at hok
      exact inv_insert c t now bd d nonce hsh hI hok.2 hok.1
  | clear =>
      exact ⟨List.nodup_nil, List.Perm.nil, List.Pairwise.nil,
        by intro k hk; simp [applyCacheOp, LRUCache.clear] at hk⟩

theorem runCache_inv (ops : List CacheOp) : ∀ (c : LRUCache) (t : Nat),
    CacheInv c t → goodRun c t ops = true →
    ∃ t2, CacheInv (runCache c ops) t2 := by
  induction ops with
  | nil => intro c t hI _; exact ⟨t, hI⟩
  | cons op rest ih =>
      intro c t hI hg
      simp only [goodRun, Bool.and_eq_true] at hg
      exact ih _ _ (applyOp_inv c t op hI (by simp [hg.1.1, hg.1.2])) hg.2

/-- Counterexample for C9 as stated: inserting the same key twice leaves a
duplicate in `access_order` — its length is 2 while `entries` has one key, and
`access_order` is no longer duplicate-free. -/
theorem c9_counterexample :
    ((runCache LRUCache.empty
        [.insert 1 "a" 1 5 "h", .insert 2 "a" 1 5 "h"]).access_order.length = 2 ∧
     (runCache LRUCache.empty
        [.insert 1 "a" 1 5 "h", .insert 2 "a" 1 5 "h"]).entries.length = 1) ∧
    ¬ (runCache LRUCache.empty
        [.insert 1 "a" 1 5 "h", .insert 2 "a" 1 5 "h"]).access_order.Nodup := by
  refine ⟨⟨rfl, rfl⟩, by decide⟩

/-- C9 (amended): after any sequence of `get`/`insert`/`clear` operations from
the empty cache in which timestamps are monotone and no `insert` hits a key
already present, the invariants hold: `|access_order| = |entries|`, the keys of
`access_order` are exactly the keys of `entries`, `access_order` has no
duplicates, and the key at position 0 has the least `last_accessed` stamp. -/
theorem c9_invariants (ops : List CacheOp)
    (hg : goodRun LRUCache.empty 0 ops = true) :
    (runCache LRUCache.empty ops).access_order.length =
      (runCache LRUCache.empty ops).entries.length ∧
    (∀ k, k ∈ (runCache LRUCache.empty ops).access_order ↔
      (entGet (runCache LRUCache.empty ops).entries k).isSome = true) ∧
    (runCache LRUCache.empty ops).access_order.Nodup ∧
    (∀ hd, (runCache LRUCache.empty ops).access_order.head? = some hd →
      ∀ k ∈ (runCache LRUCache.empty ops).access_order,
        la (runCache LRUCache.empty ops) hd ≤ la (runCache LRUCache.empty ops) k) := by
  obtain ⟨t2, hnd, hperm, hsort, hbound⟩ := runCache_inv ops LRUCache.empty 0 inv_empty hg
  refine ⟨?_, ?_, hnd, ?_⟩
  · rw [hperm.length_eq, List.length_map]
  · intro k
    rw [hperm.mem_iff, entGet_isSome_iff]
  · intro hd hhd k hk
    cases horder : (runCache LRUCache.empty ops).access_order with
    | nil => rw [horder] at hhd; simp at hhd
    | cons a tl =>
        rw [horder] at hhd hk hsort
        simp only [List.head?_cons, Option.some_inj] at hhd
        subst hhd
        rcases List.mem_cons.mp hk with rfl | hk
        · exact le_refl _
        · exact (List.pairwise_cons.mp hsort).1 k hk

/-- Witness for C9 on a fresh insert followed by a hit. -/
theorem c9_witness :
    (runCache LRUCache.empty [.insert 1 "a" 1 5 "h", .get 2 "a" 1]).access_order.length =
      (runCache LRUCache.empty [.insert 1 "a" 1 5 "h", .get 2 "a" 1]).entries.length ∧
    (∀ k, k ∈ (runCache LRUCache.empty [.insert 1 "a" 1 5 "h", .get 2 "a" 1]).access_order ↔
      (entGet (runCache LRUCache.empty
        [.insert 1 "a" 1 5 "h", .get 2 "a" 1]).entries k).isSome = true) ∧
    (runCache LRUCache.empty [.insert 1 "a" 1 5 "h", .get 2 "a" 1]).access_order.Nodup ∧
    (∀ hd, (runCache LRUCache.empty
        [.insert 1 "a" 1 5 "h", .get 2 "a" 1]).access_order.head? = some hd →
      ∀ k ∈ (runCache LRUCache.empty [.insert 1 "a" 1 5 "h", .get 2 "a" 1]).access_order,
        la (runCache LRUCache.empty [.insert 1 "a" 1 5 "h", .get 2 "a" 1]) hd ≤
          la (runCache LRUCache.empty [.insert 1 "a" 1 5 "h", .get 2 "a" 1]) k) :=
  c9_invariants [.insert 1 "a" 1 5 "h", .get 2 "a" 1] (by decide)

/-- C10: `is_cached` runs the mutating `get`: whenever the key is present (so
the probe returns true), the matched entry's `hits` is incremented, its
`last_accessed` is set to `now`, and the key moves to the MRU end of
`access_order` — a mere presence check changes hit statistics and LRU order. -/
theorem c10_is_cached_mutates (c : LRUCache) (now : Nat) (bd : String) (d : Nat)
    (e : CacheEntry) (hE : entGet c.entries (makeKey bd d) = some e) :
    (isCached c now bd d).1 = true ∧
    entGet (isCached c now bd d).2.entries (makeKey bd d) =
      some { e with hits := e.hits + 1, last_accessed := now } ∧
    (isCached c now bd d).2.access_order =
      c.access_order.erase (makeKey bd d) ++ [makeKey bd d] := by
  have hrun : c.get now bd d =
      (some { e with hits := e.hits + 1, last_accessed := now },
       ⟨entSet c.entries (makeKey bd d) { e with hits := e.hits + 1, last_accessed := now },
        c.access_order.erase (makeKey bd d) ++ [makeKey bd d]⟩) := by
    unfold LRUCache.get
    rw [hE]
  unfold isCached
  rw [hrun]
  refine ⟨rfl, ?_, rfl⟩
  rw [entGet_entSet_self, hE]
  rfl

/-- Witness for C10 on a one-entry cache. -/
theorem c10_witness :
    (isCached ⟨[("a:1", ⟨5, "h", 1, 0, 0, 0⟩)], ["a:1"]⟩ 9 "a" 1).1 = true ∧
    entGet (isCached ⟨[("a:1", ⟨5, "h", 1, 0, 0, 0⟩)], ["a:1"]⟩ 9 "a" 1).2.entries
        (makeKey "a" 1) = some ⟨5, "h", 1, 1, 0, 9⟩ ∧
    (isCached ⟨[("a:1", ⟨5, "h", 1, 0, 0, 0⟩)], ["a:1"]⟩ 9 "a" 1).2.access_order =
      (["a:1"] : List String).erase (makeKey "a" 1) ++ [makeKey "a" 1] :=
  c10_is_cached_mutates ⟨[("a:1", ⟨5, "h", 1, 0, 0, 0⟩)], ["a:1"]⟩ 9 "a" 1
    ⟨5, "h", 1, 0, 0, 0⟩ (by decide)

end PoWIC
